import Mathlib

/-!
Shallow embedding of the segmentation-and-timestamp-reconstruction core of
SpeechSynthSubs (src/main.py): the Segmenter `text_to_ssml` and the Resolver
`process_response`.  Strings are modelled as `List Char`; the float timestamps
returned by the synthesis service are modelled as rationals (they are only
ever copied, never computed with, inside the resolver); Python `None` is
modelled by `Option`.
-/

namespace SpeechSynthSubs

/-- Embedding of the Unicode general categories P* and S*: the set of
codepoint ranges whose characters match the pattern alternatives `\p{P}` and
`\p{S}` used in `text_to_ssml` (line 31) and in `unwanted_separators`
(line 102).  Generated from the Unicode character database. -/
def punctSymRanges : List (Nat × Nat) := [
  (33, 47), (58, 64), (91, 96), (123, 126), (161, 169), (171, 172), (174, 177), (180, 180),
  (182, 184), (187, 187), (191, 191), (215, 215), (247, 247), (706, 709), (722, 735), (741, 747),
  (749, 749), (751, 767), (885, 885), (894, 894), (900, 901), (903, 903), (1014, 1014), (1154, 1154),
  (1370, 1375), (1417, 1418), (1421, 1423), (1470, 1470), (1472, 1472), (1475, 1475), (1478, 1478), (1523, 1524),
  (1542, 1551), (1563, 1563), (1565, 1567), (1642, 1645), (1748, 1748), (1758, 1758), (1769, 1769), (1789, 1790),
  (1792, 1805), (2038, 2041), (2046, 2047), (2096, 2110), (2142, 2142), (2184, 2184), (2404, 2405), (2416, 2416),
  (2546, 2547), (2554, 2555), (2557, 2557), (2678, 2678), (2800, 2801), (2928, 2928), (3059, 3066), (3191, 3191),
  (3199, 3199), (3204, 3204), (3407, 3407), (3449, 3449), (3572, 3572), (3647, 3647), (3663, 3663), (3674, 3675),
  (3841, 3863), (3866, 3871), (3892, 3892), (3894, 3894), (3896, 3896), (3898, 3901), (3973, 3973), (4030, 4037),
  (4039, 4044), (4046, 4058), (4170, 4175), (4254, 4255), (4347, 4347), (4960, 4968), (5008, 5017), (5120, 5120),
  (5741, 5742), (5787, 5788), (5867, 5869), (5941, 5942), (6100, 6102), (6104, 6107), (6144, 6154), (6464, 6464),
  (6468, 6469), (6622, 6655), (6686, 6687), (6816, 6822), (6824, 6829), (7002, 7018), (7028, 7038), (7164, 7167),
  (7227, 7231), (7294, 7295), (7360, 7367), (7379, 7379), (8125, 8125), (8127, 8129), (8141, 8143), (8157, 8159),
  (8173, 8175), (8189, 8190), (8208, 8231), (8240, 8286), (8314, 8318), (8330, 8334), (8352, 8384), (8448, 8449),
  (8451, 8454), (8456, 8457), (8468, 8468), (8470, 8472), (8478, 8483), (8485, 8485), (8487, 8487), (8489, 8489),
  (8494, 8494), (8506, 8507), (8512, 8516), (8522, 8525), (8527, 8527), (8586, 8587), (8592, 9254), (9280, 9290),
  (9372, 9449), (9472, 10101), (10132, 11123), (11126, 11157), (11159, 11263), (11493, 11498), (11513, 11516), (11518, 11519),
  (11632, 11632), (11776, 11822), (11824, 11869), (11904, 11929), (11931, 12019), (12032, 12245), (12272, 12283), (12289, 12292),
  (12296, 12320), (12336, 12336), (12342, 12343), (12349, 12351), (12443, 12444), (12448, 12448), (12539, 12539), (12688, 12689),
  (12694, 12703), (12736, 12771), (12800, 12830), (12842, 12871), (12880, 12880), (12896, 12927), (12938, 12976), (12992, 13311),
  (19904, 19967), (42128, 42182), (42238, 42239), (42509, 42511), (42611, 42611), (42622, 42622), (42738, 42743), (42752, 42774),
  (42784, 42785), (42889, 42890), (43048, 43051), (43062, 43065), (43124, 43127), (43214, 43215), (43256, 43258), (43260, 43260),
  (43310, 43311), (43359, 43359), (43457, 43469), (43486, 43487), (43612, 43615), (43639, 43641), (43742, 43743), (43760, 43761),
  (43867, 43867), (43882, 43883), (44011, 44011), (64297, 64297), (64434, 64450), (64830, 64847), (64975, 64975), (65020, 65023),
  (65040, 65049), (65072, 65106), (65108, 65126), (65128, 65131), (65281, 65295), (65306, 65312), (65339, 65344), (65371, 65381),
  (65504, 65510), (65512, 65518), (65532, 65533), (65792, 65794), (65847, 65855), (65913, 65929), (65932, 65934), (65936, 65948),
  (65952, 65952), (66000, 66044), (66463, 66463), (66512, 66512), (66927, 66927), (67671, 67671), (67703, 67704), (67871, 67871),
  (67903, 67903), (68176, 68184), (68223, 68223), (68296, 68296), (68336, 68342), (68409, 68415), (68505, 68508), (69293, 69293),
  (69461, 69465), (69510, 69513), (69703, 69709), (69819, 69820), (69822, 69825), (69952, 69955), (70004, 70005), (70085, 70088),
  (70093, 70093), (70107, 70107), (70109, 70111), (70200, 70205), (70313, 70313), (70731, 70735), (70746, 70747), (70749, 70749),
  (70854, 70854), (71105, 71127), (71233, 71235), (71264, 71276), (71353, 71353), (71484, 71487), (71739, 71739), (72004, 72006),
  (72162, 72162), (72255, 72262), (72346, 72348), (72350, 72354), (72769, 72773), (72816, 72817), (73463, 73464), (73685, 73713),
  (73727, 73727), (74864, 74868), (77809, 77810), (92782, 92783), (92917, 92917), (92983, 92991), (92996, 92997), (93847, 93850),
  (94178, 94178), (113820, 113820), (113823, 113823), (118608, 118723), (118784, 119029), (119040, 119078), (119081, 119140), (119146, 119148),
  (119171, 119172), (119180, 119209), (119214, 119274), (119296, 119361), (119365, 119365), (119552, 119638), (120513, 120513), (120539, 120539),
  (120571, 120571), (120597, 120597), (120629, 120629), (120655, 120655), (120687, 120687), (120713, 120713), (120745, 120745), (120771, 120771),
  (120832, 121343), (121399, 121402), (121453, 121460), (121462, 121475), (121477, 121483), (123215, 123215), (123647, 123647), (125278, 125279),
  (126124, 126124), (126128, 126128), (126254, 126254), (126704, 126705), (126976, 127019), (127024, 127123), (127136, 127150), (127153, 127167),
  (127169, 127183), (127185, 127221), (127245, 127405), (127462, 127490), (127504, 127547), (127552, 127560), (127568, 127569), (127584, 127589),
  (127744, 128727), (128733, 128748), (128752, 128764), (128768, 128883), (128896, 128984), (128992, 129003), (129008, 129008), (129024, 129035),
  (129040, 129095), (129104, 129113), (129120, 129159), (129168, 129197), (129200, 129201), (129280, 129619), (129632, 129645), (129648, 129652),
  (129656, 129660), (129664, 129670), (129680, 129708), (129712, 129722), (129728, 129733), (129744, 129753), (129760, 129767), (129776, 129782),
  (129792, 129938), (129940, 129994)
]

/-- Does the character match `\p{P}` or `\p{S}`? -/
def isPunctSym (c : Char) : Bool :=
  punctSymRanges.any (fun r => decide (r.1 ≤ c.toNat) && decide (c.toNat ≤ r.2))

/-- Codepoints matched by `\s` (and stripped by `str.strip()`): the Python
whitespace set. -/
def wsCodes : List Nat :=
  [9, 10, 11, 12, 13, 28, 29, 30, 31, 32, 133, 160, 5760,
   8192, 8193, 8194, 8195, 8196, 8197, 8198, 8199, 8200, 8201, 8202,
   8232, 8233, 8239, 8287, 12288]

/-- Is the character whitespace? -/
def isWs (c : Char) : Bool := wsCodes.contains c.toNat

/-- The excluded characters of `text_to_ssml` (line 32):
`excluded_chars = set('\'"“”‘’、')`. -/
def excluded_chars : List Char := ['\'', '"', '“', '”', '‘', '’', '、']

/-- Membership in the excluded set. -/
def isExcluded (c : Char) : Bool := excluded_chars.contains c

/-- Does the single character `c` match the separator pattern
`(\p{P}+|[\r\n]+|\p{S}+)` of line 31 (via `re.match(pattern, text[i])`)? -/
def isSeparatorChar (c : Char) : Bool :=
  isPunctSym c || c = Char.ofNat 13 || c = Char.ofNat 10

/-- A character belonging to a narratable run: neither a separator nor an
excluded character (the `else` branch of the walk, lines 50-55). -/
def narratable (c : Char) : Bool := !isSeparatorChar c && !isExcluded c

/-- Collapse every run of adjacent blanks into a single blank. -/
def collapseSp : List Char → List Char
  | [] => []
  | [c] => [c]
  | c :: d :: rest =>
    if c = ' ' ∧ d = ' ' then collapseSp (d :: rest) else c :: collapseSp (d :: rest)

/-- Embedding of Python `str.strip()`: drop leading and trailing whitespace. -/
def pyStrip (t : List Char) : List Char :=
  ((t.dropWhile isWs).reverse.dropWhile isWs).reverse

/-- Embedding of line 28, `re.sub(r'\s+', ' ', text).strip()`: every
whitespace character becomes a blank, maximal blank runs collapse to one
blank, and outer whitespace is stripped. -/
def preprocess (t : List Char) : List Char :=
  pyStrip (collapseSp (t.map (fun c => if isWs c then ' ' else c)))

/-- One element appended to `ssml_segments` during the walk of
`text_to_ssml`: either a timing marker with its index (line 45) or a literal
piece of text (an excluded character, a separator character, or a narratable
run; lines 41, 47, 54). -/
inductive Item where
  | mark : Nat → Item
  | chunk : List Char → Item
deriving DecidableEq

/-- The character walk of `text_to_ssml` (lines 34-55), fuelled so that it
computes by reduction; the fuel is always called with at least the length of
the text.  State: remaining text, `previous_char_was_non_separator`, whether
the position is the very start of the text (`i == 0`), and `mark_index`.
Returns the emitted items together with the final `mark_index`. -/
def walkAux : Nat → List Char → Bool → Bool → Nat → List Item × Nat
  | _, [], _, _, k => ([], k)
  | 0, _ :: _, _, _, k => ([], k)
  | fuel + 1, c :: rest, flag, atStart, k =>
    if isExcluded c then
      let r := walkAux fuel rest flag false k
      (Item.chunk [c] :: r.1, r.2)
    else if isSeparatorChar c then
      if flag || atStart then
        let r := walkAux fuel rest false false (k + 1)
        (Item.mark k :: Item.chunk [c] :: r.1, r.2)
      else
        let r := walkAux fuel rest false false k
        (Item.chunk [c] :: r.1, r.2)
    else
      let run := (c :: rest).takeWhile narratable
      let r := walkAux fuel ((c :: rest).drop run.length) true false k
      (Item.chunk run :: r.1, r.2)

/-- The items emitted for an input text (after preprocessing). -/
def segmentItems (text : List Char) : List Item :=
  (walkAux (preprocess text).length (preprocess text) false true 0).1

/-- The final `mark_index` for an input text. -/
def segmentMarkIndex (text : List Char) : Nat :=
  (walkAux (preprocess text).length (preprocess text) false true 0).2

/-- Decimal digit character for `n < 10`. -/
def digitChar : Nat → Char
  | 0 => '0' | 1 => '1' | 2 => '2' | 3 => '3' | 4 => '4'
  | 5 => '5' | 6 => '6' | 7 => '7' | 8 => '8' | 9 => '9'
  | _ + 10 => '0'

/-- Decimal rendering of a natural number (fuelled division loop). -/
def natDigitsAux : Nat → Nat → List Char → List Char
  | 0, n, acc => digitChar (n % 10) :: acc
  | fuel + 1, n, acc =>
    if n < 10 then digitChar n :: acc
    else natDigitsAux fuel (n / 10) (digitChar (n % 10) :: acc)

/-- Decimal rendering of a natural number, as Python `str` formats it. -/
def natDigits (n : Nat) : List Char := natDigitsAux n n []

/-- The characters of `<mark name="mark_` (the fixed head of a marker
element). -/
def headerStr : List Char :=
  ['<', 'm', 'a', 'r', 'k', ' ', 'n', 'a', 'm', 'e', '=', '"', 'm', 'a', 'r', 'k', '_']

/-- The characters of `"/>` (the fixed tail of a marker element). -/
def tailStr : List Char := ['"', '/', '>']

/-- The rendered marker element `<mark name="mark_k"/>` (line 45). -/
def markStr (k : Nat) : List Char := headerStr ++ natDigits k ++ tailStr

/-- Render one item into the characters it contributes to the markup. -/
def renderItem : Item → List Char
  | Item.mark k => markStr k
  | Item.chunk s => s

/-- Concatenation of the rendered items (`''.join(ssml_segments)`,
line 57). -/
def renderItems (l : List Item) : List Char := (l.map renderItem).flatten

/-- The characters of `<speak>`. -/
def speakOpen : List Char := ['<', 's', 'p', 'e', 'a', 'k', '>']

/-- The characters of `</speak>`. -/
def speakClose : List Char := ['<', '/', 's', 'p', 'e', 'a', 'k', '>']

/-- Embedding of `text_to_ssml` (lines 26-58): the SSML markup together with
the marker count. -/
def text_to_ssml (text : List Char) : List Char × Nat :=
  (speakOpen ++ renderItems (segmentItems text) ++ speakClose, segmentMarkIndex text)


/-- Is the character a decimal digit (matched by `\d`)? -/
def isDigitCh (c : Char) : Bool := decide (48 ≤ c.toNat) && decide (c.toNat ≤ 57)

/-- Match the regular expression `<mark name="mark_\d+"/>` at the head of
`s`: the literal head, then a maximal nonempty digit run, then the literal
tail.  Returns the remainder of `s` after the match. -/
def matchMarker (s : List Char) : Option (List Char) :=
  if headerStr.isPrefixOf s then
    let r1 := s.drop headerStr.length
    let ds := r1.takeWhile isDigitCh
    if ds = [] then none
    else
      let r2 := r1.drop ds.length
      if tailStr.isPrefixOf r2 then some (r2.drop tailStr.length) else none
  else none

/-- The left-to-right scan of `re.split(r'<mark name="mark_\d+"/>', ssml)`
(line 98), fuelled: at each position either the marker pattern matches (a
piece boundary) or one character is moved into the current piece. -/
def splitGoF : Nat → List Char → List Char → List (List Char)
  | 0, s, acc => [acc.reverse ++ s]
  | _ + 1, [], acc => [acc.reverse]
  | fuel + 1, c :: rest, acc =>
    match matchMarker (c :: rest) with
    | some rem => acc.reverse :: splitGoF fuel rem []
    | none => splitGoF fuel rest (c :: acc)

/-- Embedding of `re.split(r'<mark name="mark_\d+"/>', ssml)`. -/
def pySplitMarker (s : List Char) : List (List Char) := splitGoF (s.length + 1) s []

/-- Find the first `>` before any newline; returns the remainder after it.
This locates the end of a (shortest) match of `<.*?>` whose `<` has just
been consumed: `.` does not match a newline. -/
def findGt : List Char → Option (List Char)
  | [] => none
  | c :: rest =>
    if c = '>' then some rest
    else if c = Char.ofNat 10 then none
    else findGt rest

/-- Embedding of `re.sub(r'<.*?>', '', segment)` (line 105), fuelled: scan
left to right; at a `<` that is followed by a `>` (with no newline between)
drop through that `>`, otherwise keep the character. -/
def removeTagsF : Nat → List Char → List Char
  | 0, s => s
  | _ + 1, [] => []
  | fuel + 1, c :: rest =>
    if c = '<' then
      match findGt rest with
      | some rem => removeTagsF fuel rem
      | none => c :: removeTagsF fuel rest
    else c :: removeTagsF fuel rest

/-- Embedding of `re.sub(r'<.*?>', '', segment)`. -/
def removeTags (s : List Char) : List Char := removeTagsF (s.length + 1) s

/-- Does the character match `[\p{P}\p{S}\s]` (the `unwanted_separators`
class of line 102)? -/
def isUnwanted (c : Char) : Bool := isPunctSym c || isWs c

/-- The cleaning applied to each split piece (lines 105-108): remove SSML
tags, remove leading unwanted separators, and strip whitespace. -/
def cleanSegment (s : List Char) : List Char :=
  pyStrip ((removeTags s).dropWhile isUnwanted)

/-- The key `f'mark_{i}'` used in the `mark_times` dictionary. -/
def markName (i : Nat) : List Char := ['m', 'a', 'r', 'k', '_'] ++ natDigits i

/-- The value of `mark_times[f'mark_{i}']` for `i < mark_count`, after the
dictionary is initialised to `None` on every such key (line 91) and then
updated once per reported timepoint in order (lines 94-95): the value of the
last timepoint named `mark_i`, or `None` when there is none. -/
def markTimeLookup (tps : List (List Char × Rat)) (i : Nat) : Option Rat :=
  (tps.reverse.find? (fun p => p.1 == markName i)).map Prod.snd

/-- The emission loop of `process_response` (lines 104-117) over the split
pieces: `i` is the enumeration index, `start` the running `start_time`
(initially the integer `0`, then whatever `end_time` was — including
`None`). -/
def emitSegs (tps : List (List Char × Rat)) (n : Nat) :
    List (List Char) → Nat → Option Rat → List (List Char × Option Rat × Option Rat)
  | [], _, _ => []
  | piece :: rest, i, start =>
    let seg := cleanSegment piece
    if seg = [] then emitSegs tps n rest (i + 1) start
    else
      let endT := if i < n then markTimeLookup tps i else none
      (seg, start, endT) :: emitSegs tps n rest (i + 1) endT

/-- Embedding of `process_response` (lines 88-119).  The response is
modelled by its list of timepoints `(mark_name, time_seconds)`. -/
def process_response (tps : List (List Char × Rat)) (ssml : List Char) (mark_count : Nat) :
    List (List Char × Option Rat × Option Rat) :=
  emitSegs tps mark_count (pySplitMarker ssml) 0 (some 0)

/-- Embedding of the subtitle-event construction of `main` (lines 184-193):
when `end` is `None` the fallback `end = start + 5` is applied; when `start`
is itself `None` the addition (and `make_time(s=start)`) is a `TypeError`,
modelled as `none`. -/
def makeSubEvent : List Char × Option Rat × Option Rat → Option (List Char × Rat × Rat)
  | (t, some s, some e) => some (t, s, e)
  | (t, some s, none) => some (t, s, s + 5)
  | (_, none, _) => none


/-! Concrete rational timestamps used in the test scenarios. -/

/-- The rational `1.2` (in lowest terms, so that kernel reduction can compare
it without running `Rat` arithmetic). -/
def q12 : Rat := ⟨6, 5, by decide, by decide⟩

/-- The rational `3.4`. -/
def q34 : Rat := ⟨17, 5, by decide, by decide⟩

/-- The rational `q12` really is the literal `1.2`. -/
theorem q12_eq_scientific : q12 = 1.2 := by
  rw [q12, Rat.mk'_eq_divInt, Rat.divInt_eq_div]; norm_num

/-- The rational `q34` really is the literal `3.4`. -/
theorem q34_eq_scientific : q34 = 3.4 := by
  rw [q34, Rat.mk'_eq_divInt, Rat.divInt_eq_div]; norm_num

/-- The end time is `none` only for the final emitted segment. -/
def onlyLastNone : List (List Char × Option Rat × Option Rat) → Prop
  | [] => True
  | [_] => True
  | a :: b :: rest => a.2.2 ≠ none ∧ onlyLastNone (b :: rest)

set_option maxRecDepth 40000

/-- C1: for the input `"Hello, world. Goodbye!"`, segmentation produces
exactly 3 markers, inserted immediately before `,`, `.` and `!` — the item
list interleaves the segments `Hello` / `world` / `Goodbye` with markers
`0`, `1`, `2` — and resolving against the map `{0 : 1.2, 1 : 3.4, 2 :
absent}` yields exactly `[("Hello", 0, 1.2), ("world", 1.2, 3.4),
("Goodbye", 3.4, null)]`. -/
theorem c1_scenario_a_b :
    segmentItems "Hello, world. Goodbye!".toList =
      [Item.chunk "Hello".toList, Item.mark 0, Item.chunk [','],
       Item.chunk " world".toList, Item.mark 1, Item.chunk ['.'],
       Item.chunk " Goodbye".toList, Item.mark 2, Item.chunk ['!']]
    ∧ text_to_ssml "Hello, world. Goodbye!".toList =
      ("<speak>Hello<mark name=\"mark_0\"/>, world<mark name=\"mark_1\"/>. Goodbye<mark name=\"mark_2\"/>!</speak>".toList, 3)
    ∧ process_response [("mark_0".toList, q12), ("mark_1".toList, q34)]
        (text_to_ssml "Hello, world. Goodbye!".toList).1 3 =
      [("Hello".toList, some 0, some q12),
       ("world".toList, some q12, some q34),
       ("Goodbye".toList, some q34, none)] :=
  ⟨by decide, by decide, by decide⟩

/-- C2 evidence: with the timestamp for `mark_0` absent and `mark_1 = 3.4`,
the code assigns `start_time = end_time` even when `end_time` is `None`
(line 117), so the segment `"world"` is emitted with start `None`; the
claimed behaviour (cursor left unchanged when the end is absent) would
instead start `"world"` at the last known timestamp `0`. -/
theorem c2_cursor_divergence :
    process_response [("mark_1".toList, q34)]
      (text_to_ssml "Hello, world. Goodbye!".toList).1 3 =
    [("Hello".toList, some 0, none),
     ("world".toList, none, some q34),
     ("Goodbye".toList, some q34, none)] := by decide

/-- C4: there is an input (a marker-annotated markup with its marker count,
and a timestamp map omitting a non-final marker's timestamp) for which the
Resolver returns a Timed Segment whose start is `None` rather than a number,
and the downstream subtitle fallback `end = start + 5` is ill-defined for
that segment. -/
theorem c4_none_start_exists :
    ∃ (text : List Char) (tps : List (List Char × Rat)),
      ∃ seg ∈ process_response tps (text_to_ssml text).1 (text_to_ssml text).2,
        seg.2.1 = none ∧ makeSubEvent seg = none :=
  ⟨"Hello, world. Goodbye!".toList, [], ("world".toList, none, none),
   by decide, rfl, rfl⟩

/-- C3 counterexample: it is not true that for every input text and every
marker-timestamp map the end time is `null` only for the final segment —
with every timestamp absent, the non-final segment `"Hello"` already has a
`null` end time. -/
theorem c3_counterexample :
    ¬ (∀ (text : List Char) (tps : List (List Char × Rat)),
        onlyLastNone (process_response tps (text_to_ssml text).1 (text_to_ssml text).2)) := by
  intro h
  have h2 := h "Hello, world. Goodbye!".toList []
  rw [show process_response [] (text_to_ssml "Hello, world. Goodbye!".toList).1
        (text_to_ssml "Hello, world. Goodbye!".toList).2 =
      [("Hello".toList, some 0, none), ("world".toList, none, none),
       ("Goodbye".toList, none, none)] from by decide] at h2
  exact h2.1 rfl

/-- C6 counterexample: it is not true that no extracted segment text
contains an excluded character — for the input `"a',"` the apostrophe
trails the narratable run and survives into the segment text `a'`. -/
theorem c6_counterexample :
    ¬ (∀ (text : List Char) (tps : List (List Char × Rat)),
        ∀ seg ∈ process_response tps (text_to_ssml text).1 (text_to_ssml text).2,
        ∀ c ∈ seg.1, isExcluded c = false) := by
  intro h
  exact absurd
    (h "a',".toList [] (['a', '\''], some 0, none) (by decide) '\'' (by decide))
    (by decide)


/-! Generic lemmas about the walk and the resolver. -/

/-- The head of a `dropWhile` result falsifies the predicate. -/
theorem dropWhile_head_false {p : Char → Bool} :
    ∀ {l : List Char} {c : Char} {r : List Char}, l.dropWhile p = c :: r → p c = false := by
  intro l
  induction l with
  | nil => intro c r h; simp [List.dropWhile] at h
  | cons a l' ih =>
    intro c r h
    by_cases hp : p a
    · rw [List.dropWhile_cons_of_pos hp] at h; exact ih h
    · rw [List.dropWhile_cons_of_neg hp] at h
      cases h; simpa using hp

/-- A `takeWhile` result followed by the drop of its length restores the
list. -/
theorem takeWhile_append_drop (p : Char → Bool) :
    ∀ l : List Char, l.takeWhile p ++ l.drop (l.takeWhile p).length = l := by
  intro l
  induction l with
  | nil => rfl
  | cons c r ih =>
    by_cases hp : p c
    · rw [List.takeWhile_cons_of_pos hp]; simpa using ih
    · rw [List.takeWhile_cons_of_neg hp]; rfl

/-- Stripping only removes characters: when the head of the input is not
whitespace, the input is the strip result followed by some (whitespace)
remainder. -/
theorem pyStrip_append {u : List Char} {c : Char}
    (hu : u.head? = some c) (hc : isWs c = false) :
    ∃ w, u = pyStrip u ++ w := by
  obtain ⟨u', rfl⟩ : ∃ u'', u = c :: u'' := by
    cases u with
    | nil => simp at hu
    | cons a u'' => simp at hu; exact ⟨u'', by rw [hu]⟩
  have hdw : (c :: u').dropWhile isWs = c :: u' := List.dropWhile_cons_of_neg (by simp [hc])
  have hsuffix : ∃ t, t ++ (c :: u').reverse.dropWhile isWs = (c :: u').reverse := by
    generalize (c :: u').reverse = v
    induction v with
    | nil => exact ⟨[], rfl⟩
    | cons a v' ih =>
      by_cases hp : isWs a
      · rw [List.dropWhile_cons_of_pos hp]
        obtain ⟨t, ht⟩ := ih
        exact ⟨a :: t, by simp [ht]⟩
      · rw [List.dropWhile_cons_of_neg hp]; exact ⟨[], rfl⟩
  obtain ⟨t, ht⟩ := hsuffix
  refine ⟨t.reverse, ?_⟩
  have := congrArg List.reverse ht
  simpa [pyStrip, hdw] using this.symm

/-- A nonempty `cleanSegment` result starts with a character that is neither
punctuation, symbol, nor whitespace. -/
theorem cleanSegment_head {piece : List Char} {c : Char} {r : List Char}
    (h : cleanSegment piece = c :: r) : isUnwanted c = false := by
  rw [cleanSegment] at h
  cases hu2 : (removeTags piece).dropWhile isUnwanted with
  | nil => rw [hu2] at h; simp [pyStrip] at h
  | cons c0 u' =>
    rw [hu2] at h
    have hc0 : isUnwanted c0 = false := dropWhile_head_false hu2
    have hws : isWs c0 = false := by
      cases hw : isWs c0
      · rfl
      · rw [isUnwanted, hw, Bool.or_true] at hc0; exact hc0
    obtain ⟨w, hw2⟩ := pyStrip_append (show (c0 :: u').head? = some c0 from rfl) hws
    rw [h, List.cons_append] at hw2
    injection hw2 with h1 _
    rw [← h1]
    exact hc0

/-- Members of the resolver's output are nonempty cleaned split pieces. -/
theorem emitSegs_mem {tps : List (List Char × Rat)} {n : Nat} :
    ∀ {pieces : List (List Char)} {i : Nat} {start : Option Rat} {seg},
      seg ∈ emitSegs tps n pieces i start →
      seg.1 ≠ [] ∧ ∃ piece, seg.1 = cleanSegment piece := by
  intro pieces
  induction pieces with
  | nil => intro i start seg h; simp [emitSegs] at h
  | cons piece rest ih =>
    intro i start seg h
    rw [emitSegs] at h
    by_cases he : cleanSegment piece = []
    · rw [if_pos he] at h; exact ih h
    · rw [if_neg he] at h
      rcases List.mem_cons.mp h with h1 | h1
      · subst h1; exact ⟨he, piece, rfl⟩
      · exact ih h1

/-- Every excluded character is Unicode punctuation. -/
theorem excluded_isPunctSym {c : Char} (h : isExcluded c = true) :
    isPunctSym c = true := by
  have hm : c ∈ excluded_chars := by
    rw [isExcluded] at h
    simpa using h
  rw [excluded_chars] at hm
  fin_cases hm <;> decide

set_option maxRecDepth 40000

/-- C6 (amended): every segment text the Resolver emits is nonempty and
does not begin with an excluded character (nor with any punctuation,
symbol, or whitespace character): the cleaning removes leading unwanted
characters.  (Trailing excluded characters may remain — see the
counterexample.) -/
theorem c6_no_leading_excluded :
    ∀ (text : List Char) (tps : List (List Char × Rat)) seg,
      seg ∈ process_response tps (text_to_ssml text).1 (text_to_ssml text).2 →
      ∃ c r, seg.1 = c :: r ∧ isExcluded c = false ∧ isUnwanted c = false := by
  intro text tps seg h
  obtain ⟨hne, piece, hp⟩ := emitSegs_mem h
  cases hs : seg.1 with
  | nil => exact absurd hs hne
  | cons c r =>
    refine ⟨c, r, rfl, ?_, ?_⟩
    · rcases hx : isExcluded c with _ | _
      · rfl
      · exfalso
        have h1 : isUnwanted c = false := cleanSegment_head (hp ▸ hs ▸ rfl : cleanSegment piece = c :: r)
        rw [isUnwanted, excluded_isPunctSym hx] at h1
        simp at h1
    · exact cleanSegment_head (hp ▸ hs ▸ rfl : cleanSegment piece = c :: r)

/-- C6 witness: the first Scenario A segment instantiates the amended
claim. -/
theorem c6_no_leading_excluded_witness :
    (("Hello".toList, (some 0 : Option Rat), some q12) ∈
      process_response [("mark_0".toList, q12), ("mark_1".toList, q34)]
        (text_to_ssml "Hello, world. Goodbye!".toList).1
        (text_to_ssml "Hello, world. Goodbye!".toList).2)
    ∧ ∃ c r, ("Hello".toList : List Char) = c :: r ∧ isExcluded c = false ∧ isUnwanted c = false :=
  ⟨by decide, by
    have h := c6_no_leading_excluded "Hello, world. Goodbye!".toList
      [("mark_0".toList, q12), ("mark_1".toList, q34)]
      ("Hello".toList, some 0, some q12) (by decide)
    simpa using h⟩


/-- The start times of a timed-segment list chain from `s`: each segment
starts at the accumulator and the accumulator becomes its end time. -/
def chainedFrom (s : Option Rat) : List (List Char × Option Rat × Option Rat) → Prop
  | [] => True
  | seg :: rest => seg.2.1 = s ∧ chainedFrom seg.2.2 rest

/-- The emission loop always produces a chained list: `start_time` begins at
the accumulator and is reassigned to `end_time` after every emission. -/
theorem chainedFrom_emitSegs {tps : List (List Char × Rat)} {n : Nat} :
    ∀ (pieces : List (List Char)) (i : Nat) (start : Option Rat),
      chainedFrom start (emitSegs tps n pieces i start) := by
  intro pieces
  induction pieces with
  | nil => intro i start; trivial
  | cons piece rest ih =>
    intro i start
    rw [emitSegs]
    by_cases he : cleanSegment piece = []
    · rw [if_pos he]; exact ih (i + 1) start
    · rw [if_neg he]; exact ⟨rfl, ih (i + 1) _⟩

/-- In a chained list, the head starts at the accumulator. -/
theorem chainedFrom_head {s : Option Rat} {l : List (List Char × Option Rat × Option Rat)}
    (h : chainedFrom s l) : ∀ seg, l.head? = some seg → seg.2.1 = s := by
  cases l with
  | nil => intro seg hs; simp at hs
  | cons a rest =>
    intro seg hs
    simp at hs
    rw [← hs]
    exact h.1

/-- In a chained list, each segment starts where the previous one ended. -/
theorem chainedFrom_consecutive :
    ∀ {l : List (List Char × Option Rat × Option Rat)} {s : Option Rat},
      chainedFrom s l → ∀ i a b, l[i]? = some a → l[i + 1]? = some b → b.2.1 = a.2.2 := by
  intro l
  induction l with
  | nil => intro s _ i a b ha; simp at ha
  | cons x rest ih =>
    intro s h i a b ha hb
    cases i with
    | zero =>
      rw [List.getElem?_cons_zero] at ha
      rw [List.getElem?_cons_succ] at hb
      cases ha
      cases rest with
      | nil => simp at hb
      | cons y rest' =>
        rw [List.getElem?_cons_zero] at hb
        cases hb
        exact h.2.1
    | succ j =>
      rw [List.getElem?_cons_succ] at ha hb
      exact ih h.2 j a b ha hb

/-- C5: for every markup, marker count, and timepoint list, the first
emitted Timed Segment starts at exactly 0, and every later segment starts
at the previous segment's end time — in particular whenever that end time
is known, the next start equals it. -/
theorem c5_start_chaining :
    ∀ (ssml : List Char) (n : Nat) (tps : List (List Char × Rat)),
      (∀ seg, (process_response tps ssml n).head? = some seg → seg.2.1 = some 0)
      ∧ (∀ i a b, (process_response tps ssml n)[i]? = some a →
          (process_response tps ssml n)[i + 1]? = some b →
          ∀ q : Rat, a.2.2 = some q → b.2.1 = some q) := by
  intro ssml n tps
  have hchain : chainedFrom (some 0) (emitSegs tps n (pySplitMarker ssml) 0 (some 0)) :=
    chainedFrom_emitSegs (pySplitMarker ssml) 0 (some 0)
  constructor
  · exact chainedFrom_head hchain
  · intro i a b ha hb q hq
    rw [chainedFrom_consecutive hchain i a b ha hb, hq]

set_option maxRecDepth 40000 in
/-- C5 witness: Scenario A and B instantiate the chaining invariant: the
second segment starts at `1.2`, the first segment's known end time. -/
theorem c5_start_chaining_witness :
    (process_response [("mark_0".toList, q12), ("mark_1".toList, q34)]
        (text_to_ssml "Hello, world. Goodbye!".toList).1 3)[0]? =
      some ("Hello".toList, some 0, some q12)
    ∧ (process_response [("mark_0".toList, q12), ("mark_1".toList, q34)]
        (text_to_ssml "Hello, world. Goodbye!".toList).1 3)[1]? =
      some ("world".toList, some q12, some q34)
    ∧ ("world".toList, (some q12 : Option Rat), (some q34 : Option Rat)).2.1 = some q12 :=
  ⟨by decide, by decide,
    (c5_start_chaining (text_to_ssml "Hello, world. Goodbye!".toList).1 3
        [("mark_0".toList, q12), ("mark_1".toList, q34)]).2
      0 ("Hello".toList, some 0, some q12) ("world".toList, some q12, some q34)
      (by decide) (by decide) q12 rfl⟩

/-- Is an item a marker? -/
def isMark : Item → Bool
  | Item.mark _ => true
  | Item.chunk _ => false

/-- The concatenation of the text chunks of an item list (everything that is
not a marker element). -/
def chunksJoin (l : List Item) : List Char :=
  (l.filterMap (fun it => match it with
    | Item.chunk s => some s
    | Item.mark _ => none)).flatten

/-- Dropping the marker items and rendering is the same as joining the
chunks. -/
theorem renderItems_filter_eq_chunksJoin :
    ∀ l : List Item, renderItems (l.filter (fun it => !isMark it)) = chunksJoin l := by
  intro l
  induction l with
  | nil => rfl
  | cons it rest ih =>
    cases it with
    | mark k => simpa [renderItems, chunksJoin, isMark, List.filter] using ih
    | chunk s => simpa [renderItems, chunksJoin, isMark, List.filter, renderItem] using ih

/-- The chunks emitted by the walk concatenate back to the walked text: the
walk copies every character (separators and excluded characters as
single-character chunks, narratable runs whole) and only ever inserts the
extra marker items. -/
theorem chunksJoin_walkAux :
    ∀ (fuel : Nat) (t : List Char) (flag atStart : Bool) (k : Nat),
      t.length ≤ fuel → chunksJoin (walkAux fuel t flag atStart k).1 = t := by
  intro fuel
  induction fuel with
  | zero =>
    intro t flag atStart k hlen
    cases t with
    | nil => rfl
    | cons c rest => simp at hlen
  | succ f ih =>
    intro t flag atStart k hlen
    cases t with
    | nil => rfl
    | cons c rest =>
      rw [walkAux]
      by_cases hex : isExcluded c
      · rw [if_pos hex]
        have := ih rest flag false k (by simpa using Nat.le_of_succ_le_succ hlen)
        simpa [chunksJoin] using this
      · rw [if_neg hex]
        by_cases hsep : isSeparatorChar c
        · rw [if_pos hsep]
          by_cases hfl : (flag || atStart) = true
          · rw [if_pos hfl]
            have := ih rest false false (k + 1) (by simpa using Nat.le_of_succ_le_succ hlen)
            simpa [chunksJoin] using this
          · rw [if_neg hfl]
            have := ih rest false false k (by simpa using Nat.le_of_succ_le_succ hlen)
            simpa [chunksJoin] using this
        · rw [if_neg hsep]
          have hnarr : narratable c = true := by simp [narratable, hsep, hex]
          have hrun : (c :: rest).takeWhile narratable = c :: rest.takeWhile narratable :=
            List.takeWhile_cons_of_pos hnarr
          have h3 : rest.length ≤ f := Nat.le_of_succ_le_succ (by simpa using hlen)
          have hlen2 : ((c :: rest).drop ((c :: rest).takeWhile narratable).length).length ≤ f := by
            rw [List.length_drop, hrun]
            simp only [List.length_cons]
            omega
          have hrec := ih ((c :: rest).drop ((c :: rest).takeWhile narratable).length) true false k hlen2
          show chunksJoin (Item.chunk ((c :: rest).takeWhile narratable) ::
              (walkAux f ((c :: rest).drop ((c :: rest).takeWhile narratable).length) true false k).1)
            = c :: rest
          simp only [chunksJoin, List.filterMap_cons, List.flatten_cons]
          simp only [chunksJoin] at hrec
          rw [hrec]
          exact takeWhile_append_drop narratable (c :: rest)

/-- C7: the markup is exactly the preprocessed input wrapped in
`<speak>...</speak>` with marker elements interleaved: removing the
enclosing tag leaves the rendered items, and removing every marker element
from those leaves, character for character, the preprocessed input (the
segment chunks concatenated in order with separators and excluded
characters interleaved). -/
theorem c7_markup_reconstruction :
    ∀ text : List Char,
      (text_to_ssml text).1 = speakOpen ++ renderItems (segmentItems text) ++ speakClose
      ∧ renderItems ((segmentItems text).filter (fun it => !isMark it)) = preprocess text := by
  intro text
  refine ⟨rfl, ?_⟩
  rw [renderItems_filter_eq_chunksJoin]
  exact chunksJoin_walkAux (preprocess text).length (preprocess text) false true 0 le_rfl

/-- Characters of `collapseSp u` all come from `u`. -/
theorem collapseSp_subset : ∀ (u : List Char) (c : Char), c ∈ collapseSp u → c ∈ u := by
  intro u
  induction u with
  | nil => intro c h; simp [collapseSp] at h
  | cons a u' ih =>
    intro c h
    cases u' with
    | nil => simpa [collapseSp] using h
    | cons b u'' =>
      rw [collapseSp] at h
      by_cases hab : a = ' ' ∧ b = ' '
      · rw [if_pos hab] at h
        exact List.mem_cons_of_mem a (ih c h)
      · rw [if_neg hab] at h
        rcases List.mem_cons.mp h with h1 | h1
        · exact h1 ▸ List.mem_cons_self a (b :: u'')
        · exact List.mem_cons_of_mem a (ih c h1)

/-- Preprocessing a whitespace-only text yields the empty text. -/
theorem preprocess_all_ws {t : List Char} (h : ∀ c ∈ t, isWs c = true) :
    preprocess t = [] := by
  rw [preprocess]
  have hmap : ∀ c ∈ t.map (fun c => if isWs c then ' ' else c), c = ' ' := by
    intro c hc
    rcases List.mem_map.mp hc with ⟨a, ha, rfl⟩
    simp [h a ha]
  have hall : ∀ c ∈ collapseSp (t.map (fun c => if isWs c then ' ' else c)), isWs c = true := by
    intro c hc
    rw [hmap c (collapseSp_subset _ c hc)]
    decide
  rw [pyStrip, List.dropWhile_eq_nil_iff.mpr hall]
  rfl

set_option maxRecDepth 40000 in
/-- C10: segmentation of an empty or whitespace-only text succeeds, yields
zero markers, markup exactly `<speak></speak>`, and the Resolver then emits
zero segments, for every timepoint list. -/
theorem c10_whitespace_only :
    ∀ (text : List Char) (tps : List (List Char × Rat)),
      (∀ c ∈ text, isWs c = true) →
      text_to_ssml text = ("<speak></speak>".toList, 0)
      ∧ process_response tps "<speak></speak>".toList 0 = [] := by
  intro text tps h
  constructor
  · rw [text_to_ssml, segmentItems, segmentMarkIndex, preprocess_all_ws h]
    decide
  · rfl

set_option maxRecDepth 40000 in
/-- C10 witness: a concrete whitespace-only text. -/
theorem c10_whitespace_only_witness :
    (∀ c ∈ ("  \n ".toList : List Char), isWs c = true)
    ∧ text_to_ssml "  \n ".toList = ("<speak></speak>".toList, 0)
    ∧ process_response [] "<speak></speak>".toList 0 = [] :=
  ⟨by decide, (c10_whitespace_only "  \n ".toList [] (by decide)).1,
    (c10_whitespace_only "  \n ".toList [] (by decide)).2⟩

/-- With the flag clear and not at the start, the walk never begins its
output with a marker: the first emitted item for a separator is then the
separator chunk itself. -/
theorem walk_head_not_mark (fuel : Nat) (t : List Char) (j k : Nat) (rest : List Item) :
    (walkAux fuel t false false j).1 ≠ Item.mark k :: rest := by
  intro h
  cases t with
  | nil => simp [walkAux] at h
  | cons a r2 =>
    cases fuel with
    | zero => simp [walkAux] at h
    | succ f =>
      rw [walkAux] at h
      by_cases hex : isExcluded a
      · simp [hex] at h
      · by_cases hsep : isSeparatorChar a
        · simp [hex, hsep] at h
        · simp [hex, hsep] at h

/-- In the walk's output, the item immediately before a marker is never a
(non-excluded) separator chunk: after emitting a separator the flag is
cleared, so the next marker needs a fresh narratable run first. -/
theorem walk_no_sep_before_mark :
    ∀ (fuel : Nat) (t : List Char) (flag atStart : Bool) (j : Nat),
      t.length ≤ fuel →
      ∀ (l : List Item) (c : Char) (k : Nat) (r : List Item),
        (walkAux fuel t flag atStart j).1 = l ++ Item.chunk [c] :: Item.mark k :: r →
        isExcluded c = true ∨ isSeparatorChar c = false := by
  intro fuel
  induction fuel with
  | zero =>
    intro t flag atStart j hlen l c k r h
    cases t with
    | nil => rcases l with _ | ⟨b, l'⟩ <;> simp [walkAux] at h
    | cons a rest => simp at hlen
  | succ f ih =>
    intro t flag atStart j hlen l c k r h
    cases t with
    | nil => rcases l with _ | ⟨b, l'⟩ <;> simp [walkAux] at h
    | cons a rest =>
      have hlen' : rest.length ≤ f := Nat.le_of_succ_le_succ (by simpa using hlen)
      by_cases hex : isExcluded a
      · have heq : (walkAux (f + 1) (a :: rest) flag atStart j).1
            = Item.chunk [a] :: (walkAux f rest flag false j).1 := by
          simp [walkAux, hex]
        rw [heq] at h
        cases l with
        | nil =>
          rw [List.nil_append] at h
          injection h with h1 _
          injection h1 with h3
          have hca : c = a := by injection h3 with h4 _; exact h4.symm
          exact Or.inl (hca ▸ hex)
        | cons b l' =>
          rw [List.cons_append] at h
          injection h with _ h2
          exact ih rest flag false j hlen' l' c k r h2
      · by_cases hsep : isSeparatorChar a
        · by_cases hfl : (flag || atStart) = true
          · have heq : (walkAux (f + 1) (a :: rest) flag atStart j).1
                = Item.mark j :: Item.chunk [a] :: (walkAux f rest false false (j + 1)).1 := by
              simp [walkAux, hex, hsep, hfl]
            rw [heq] at h
            cases l with
            | nil =>
              rw [List.nil_append] at h
              injection h with h1 _
              injection h1
            | cons b l' =>
              rw [List.cons_append] at h
              injection h with _ h2
              cases l' with
              | nil =>
                rw [List.nil_append] at h2
                injection h2 with _ h4
                exact absurd h4 (walk_head_not_mark f rest (j + 1) k r)
              | cons b' l'' =>
                rw [List.cons_append] at h2
                injection h2 with _ h4
                exact ih rest false false (j + 1) hlen' l'' c k r h4
          · have heq : (walkAux (f + 1) (a :: rest) flag atStart j).1
                = Item.chunk [a] :: (walkAux f rest false false j).1 := by
              simp [walkAux, hex, hsep, hfl]
            rw [heq] at h
            cases l with
            | nil =>
              rw [List.nil_append] at h
              injection h with _ h2
              exact absurd h2 (walk_head_not_mark f rest j k r)
            | cons b l' =>
              rw [List.cons_append] at h
              injection h with _ h2
              exact ih rest false false j hlen' l' c k r h2
        · have heq : (walkAux (f + 1) (a :: rest) flag atStart j).1
              = Item.chunk ((a :: rest).takeWhile narratable) ::
                (walkAux f ((a :: rest).drop ((a :: rest).takeWhile narratable).length)
                  true false j).1 := by
            simp [walkAux, hex, hsep]
          rw [heq] at h
          have hnarr : narratable a = true := by simp [narratable, hsep, hex]
          have hlen2 : ((a :: rest).drop ((a :: rest).takeWhile narratable).length).length ≤ f := by
            rw [List.length_drop, List.takeWhile_cons_of_pos hnarr]
            simp only [List.length_cons]
            omega
          cases l with
          | nil =>
            rw [List.nil_append] at h
            injection h with h1 _
            injection h1 with h3
            have hc : c ∈ (a :: rest).takeWhile narratable := by
              rw [h3]; exact List.mem_cons_self c []
            have hn := List.mem_takeWhile_imp hc
            right
            simp [narratable] at hn
            exact hn.1
          | cons b l' =>
            rw [List.cons_append] at h
            injection h with _ h2
            exact ih ((a :: rest).drop ((a :: rest).takeWhile narratable).length)
              true false j hlen2 l' c k r h2

set_option maxRecDepth 40000 in
/-- C9: for `"Wait... what?"` exactly one marker is inserted for the run
of consecutive separators, immediately before its first `.` (and one before
`?`); and in general a marker is never emitted immediately after a
non-excluded separator chunk, so the second and later separators of a run
receive no additional markers. -/
theorem c9_consecutive_separators :
    (segmentItems "Wait... what?".toList =
      [Item.chunk "Wait".toList, Item.mark 0, Item.chunk ['.'], Item.chunk ['.'],
       Item.chunk ['.'], Item.chunk " what".toList, Item.mark 1, Item.chunk ['?']]
     ∧ (text_to_ssml "Wait... what?".toList).2 = 2)
    ∧ (∀ (text : List Char) (l : List Item) (c : Char) (k : Nat) (r : List Item),
        segmentItems text = l ++ Item.chunk [c] :: Item.mark k :: r →
        isExcluded c = true ∨ isSeparatorChar c = false) := by
  constructor
  · exact ⟨by decide, by decide⟩
  · intro text l c k r h
    exact walk_no_sep_before_mark (preprocess text).length (preprocess text)
      false true 0 le_rfl l c k r h

set_option maxRecDepth 40000 in
/-- C9 witness: in `"a."` the item before the marker is the narratable
chunk `a`, which is indeed not a separator. -/
theorem c9_consecutive_separators_witness :
    segmentItems "a.".toList
      = ([] : List Item) ++ Item.chunk ['a'] :: Item.mark 0 :: [Item.chunk ['.']]
    ∧ (isExcluded 'a' = true ∨ isSeparatorChar 'a' = false) :=
  ⟨by decide,
    c9_consecutive_separators.2 "a.".toList [] 'a' 0 [Item.chunk ['.']] (by decide)⟩

/-! Facts about the decimal rendering and the marker matcher, leading to the
split-count theorem: splitting the generated markup on the marker pattern
yields exactly `mark_count + 1` pieces. -/

/-- Digit characters below ten are decimal digit characters. -/
theorem isDigitCh_digitChar {m : Nat} (h : m < 10) : isDigitCh (digitChar m) = true := by
  interval_cases m <;> decide

/-- The decimal rendering loop emits only digit characters. -/
theorem natDigitsAux_all_digit :
    ∀ (fuel n : Nat) (acc : List Char), (∀ c ∈ acc, isDigitCh c = true) →
      ∀ c ∈ natDigitsAux fuel n acc, isDigitCh c = true := by
  intro fuel
  induction fuel with
  | zero =>
    intro n acc hacc c hc
    rw [natDigitsAux] at hc
    rcases List.mem_cons.mp hc with h1 | h1
    · exact h1 ▸ isDigitCh_digitChar (Nat.mod_lt n (by decide))
    · exact hacc c h1
  | succ f ih =>
    intro n acc hacc c hc
    rw [natDigitsAux] at hc
    by_cases hn : n < 10
    · rw [if_pos hn] at hc
      rcases List.mem_cons.mp hc with h1 | h1
      · exact h1 ▸ isDigitCh_digitChar hn
      · exact hacc c h1
    · rw [if_neg hn] at hc
      refine ih (n / 10) (digitChar (n % 10) :: acc) ?_ c hc
      intro c2 hc2
      rcases List.mem_cons.mp hc2 with h1 | h1
      · exact h1 ▸ isDigitCh_digitChar (Nat.mod_lt n (by decide))
      · exact hacc c2 h1

/-- Every character of a decimal rendering is a digit character. -/
theorem natDigits_all_digit (n : Nat) : ∀ c ∈ natDigits n, isDigitCh c = true :=
  natDigitsAux_all_digit n n [] (by intro c hc; simp at hc)

/-- The decimal rendering loop never returns the empty list. -/
theorem natDigitsAux_ne_nil : ∀ (fuel n : Nat) (acc : List Char), natDigitsAux fuel n acc ≠ [] := by
  intro fuel
  induction fuel with
  | zero => intro n acc; rw [natDigitsAux]; exact List.cons_ne_nil _ _
  | succ f ih =>
    intro n acc
    rw [natDigitsAux]
    by_cases hn : n < 10
    · rw [if_pos hn]; exact List.cons_ne_nil _ _
    · rw [if_neg hn]; exact ih (n / 10) _

/-- A decimal rendering is nonempty. -/
theorem natDigits_ne_nil (n : Nat) : natDigits n ≠ [] := natDigitsAux_ne_nil n n []

/-- A list is a `isPrefixOf` of itself followed by anything. -/
theorem isPrefixOf_append_self : ∀ (l r : List Char), l.isPrefixOf (l ++ r) = true := by
  intro l r
  induction l with
  | nil => cases r <;> rfl
  | cons c l' ih => simp [List.isPrefixOf, ih]

/-- A successful `isPrefixOf` gives an append decomposition. -/
theorem exists_append_of_isPrefixOf :
    ∀ {l s : List Char}, l.isPrefixOf s = true → ∃ w, s = l ++ w := by
  intro l
  induction l with
  | nil => intro s _; exact ⟨s, rfl⟩
  | cons c l' ih =>
    intro s h
    cases s with
    | nil => simp [List.isPrefixOf] at h
    | cons b s' =>
      rw [List.isPrefixOf, Bool.and_eq_true] at h
      obtain ⟨w, hw⟩ := ih h.2
      exact ⟨w, by rw [hw, List.cons_append, eq_of_beq h.1]⟩

/-- Taking while over a list of all-true characters followed by a false
character takes exactly the first part. -/
theorem takeWhile_all_append {p : Char → Bool} :
    ∀ {ds : List Char} {e : Char} {w : List Char},
      (∀ c ∈ ds, p c = true) → p e = false → (ds ++ e :: w).takeWhile p = ds := by
  intro ds
  induction ds with
  | nil =>
    intro e w _ he
    rw [List.nil_append, List.takeWhile_cons_of_neg (by simp [he])]
  | cons c ds' ih =>
    intro e w hall he
    rw [List.cons_append, List.takeWhile_cons_of_pos (hall c (List.mem_cons_self c ds'))]
    rw [ih (fun c2 hc2 => hall c2 (List.mem_cons_of_mem c hc2)) he]

/-- The marker matcher succeeds on a rendered marker and consumes exactly
it. -/
theorem matchMarker_mark (k : Nat) (z : List Char) :
    matchMarker (markStr k ++ z) = some z := by
  have hshape : markStr k ++ z = headerStr ++ (natDigits k ++ ('"' :: '/' :: '>' :: z)) := by
    rw [markStr]
    simp [tailStr, List.append_assoc]
  rw [hshape]
  simp only [matchMarker]
  rw [if_pos (isPrefixOf_append_self headerStr _)]
  simp only [List.drop_left]
  rw [takeWhile_all_append (natDigits_all_digit k) (show isDigitCh '"' = false from by decide)]
  rw [if_neg (natDigits_ne_nil k)]
  simp only [List.drop_left]
  rw [show ('"' : Char) :: '/' :: '>' :: z = tailStr ++ z from rfl]
  rw [if_pos (isPrefixOf_append_self tailStr _), List.drop_left]

/-- The marker matcher fails when the head is not `<`. -/
theorem matchMarker_ne_lt {c : Char} {s : List Char} (h : c ≠ '<') :
    matchMarker (c :: s) = none := by
  rw [matchMarker, if_neg]
  intro h2
  obtain ⟨w, hw⟩ := exists_append_of_isPrefixOf h2
  rw [show headerStr = '<' :: ['m', 'a', 'r', 'k', ' ', 'n', 'a', 'm', 'e', '=', '"', 'm', 'a', 'r', 'k', '_'] from rfl, List.cons_append] at hw
  injection hw with h3 _
  exact h (h3)

/-- The marker matcher fails on the empty list. -/
theorem matchMarker_nil : matchMarker [] = none := by decide

/-- The marker matcher fails when the second character is not `m`. -/
theorem matchMarker_two {c2 : Char} {s : List Char} (h : c2 ≠ 'm') :
    matchMarker ('<' :: c2 :: s) = none := by
  rw [matchMarker, if_neg]
  intro h2
  obtain ⟨w, hw⟩ := exists_append_of_isPrefixOf h2
  rw [show headerStr = '<' :: 'm' :: ['a', 'r', 'k', ' ', 'n', 'a', 'm', 'e', '=', '"', 'm', 'a', 'r', 'k', '_'] from rfl, List.cons_append, List.cons_append] at hw
  injection hw with _ h3
  injection h3 with h4 _
  exact h h4

/-- A Boolean that is not true is false. -/
theorem bool_eq_false {b : Bool} (h : ¬ b = true) : b = false := by
  cases b with
  | false => rfl
  | true => exact absurd rfl h

/-- The items that may directly follow a narratable-run chunk: a marker
(the flag is set, so the next separator first emits a marker) or an
excluded-character chunk (transparent to the flag). -/
def afterRunOK : Item → Prop := fun it =>
  (∃ k, it = Item.mark k) ∨ (∃ c, it = Item.chunk [c] ∧ isExcluded c = true)

/-- Structural well-formedness of walk output: every chunk is a nonempty
narratable run, a single non-excluded separator, or a single excluded
character, and a run chunk is immediately followed (if at all) only by a
marker or an excluded chunk. -/
inductive WFItems : List Item → Prop
  | nil : WFItems []
  | consRun (s : List Char) (rest : List Item) (h1 : s ≠ [])
      (h2 : ∀ c ∈ s, narratable c = true)
      (hnext : ∀ b bs, rest = b :: bs → afterRunOK b)
      (hrest : WFItems rest) : WFItems (Item.chunk s :: rest)
  | consSep (c : Char) (rest : List Item) (h : isSeparatorChar c = true)
      (hx : isExcluded c = false) (hrest : WFItems rest) : WFItems (Item.chunk [c] :: rest)
  | consExcl (c : Char) (rest : List Item) (h : isExcluded c = true)
      (hrest : WFItems rest) : WFItems (Item.chunk [c] :: rest)
  | consMark (k : Nat) (rest : List Item) (hrest : WFItems rest) : WFItems (Item.mark k :: rest)

/-- Dropping the length of a `takeWhile` is `dropWhile`. -/
theorem drop_takeWhile_eq_dropWhile (p : Char → Bool) :
    ∀ l : List Char, l.drop (l.takeWhile p).length = l.dropWhile p := by
  intro l
  induction l with
  | nil => rfl
  | cons c r ih =>
    by_cases hp : p c
    · rw [List.takeWhile_cons_of_pos hp, List.dropWhile_cons_of_pos hp]
      simpa using ih
    · rw [List.takeWhile_cons_of_neg hp, List.dropWhile_cons_of_neg hp]
      rfl

/-- When the flag is set, not at the start, and the next character (if any)
is not narratable, the walk's first output item is a marker or an excluded
chunk. -/
theorem walk_head_afterRun :
    ∀ (fuel : Nat) (t : List Char) (k : Nat),
      (t = [] ∨ ∃ c t', t = c :: t' ∧ narratable c = false) →
      ∀ b bs, (walkAux fuel t true false k).1 = b :: bs → afterRunOK b := by
  intro fuel t k ht b bs h
  rcases ht with rfl | ⟨c, t', rfl, hc⟩
  · simp [walkAux] at h
  · cases fuel with
    | zero => simp [walkAux] at h
    | succ f =>
      rw [walkAux] at h
      by_cases hex : isExcluded c
      · simp only [if_pos hex] at h
        injection h with h1 _
        exact Or.inr ⟨c, h1.symm, hex⟩
      · have hsep : isSeparatorChar c = true := by
          cases hs : isSeparatorChar c
          · exfalso
            rw [narratable, hs, bool_eq_false hex] at hc
            simp at hc
          · rfl
        simp only [if_neg hex, if_pos hsep, Bool.true_or, if_pos] at h
        injection h with h1 _
        exact Or.inl ⟨k, h1.symm⟩

/-- The walk always produces well-formed items. -/
theorem walk_WF :
    ∀ (fuel : Nat) (t : List Char) (flag atStart : Bool) (k : Nat),
      t.length ≤ fuel → WFItems (walkAux fuel t flag atStart k).1 := by
  intro fuel
  induction fuel with
  | zero =>
    intro t flag atStart k hlen
    cases t with
    | nil => exact WFItems.nil
    | cons a rest => simp at hlen
  | succ f ih =>
    intro t flag atStart k hlen
    cases t with
    | nil => exact WFItems.nil
    | cons a rest =>
      have hlen' : rest.length ≤ f := Nat.le_of_succ_le_succ (by simpa using hlen)
      rw [walkAux]
      by_cases hex : isExcluded a
      · simp only [if_pos hex]
        exact WFItems.consExcl a _ hex (ih rest flag false k hlen')
      · by_cases hsep : isSeparatorChar a
        · by_cases hfl : (flag || atStart) = true
          · simp only [if_neg hex, if_pos hsep, if_pos hfl]
            exact WFItems.consMark k _
              (WFItems.consSep a _ hsep (bool_eq_false hex) (ih rest false false (k + 1) hlen'))
          · simp only [if_neg hex, if_pos hsep, if_neg hfl]
            exact WFItems.consSep a _ hsep (bool_eq_false hex) (ih rest false false k hlen')
        · have hnarr : narratable a = true := by simp [narratable, hsep, hex]
          simp only [if_neg hex, if_neg hsep]
          have hlen2 : ((a :: rest).drop ((a :: rest).takeWhile narratable).length).length ≤ f := by
            rw [List.length_drop, List.takeWhile_cons_of_pos hnarr]
            simp only [List.length_cons]
            omega
          refine WFItems.consRun _ _ ?_ ?_ ?_ (ih _ true false k hlen2)
          · rw [List.takeWhile_cons_of_pos hnarr]
            exact List.cons_ne_nil _ _
          · intro c hc
            exact List.mem_takeWhile_imp hc
          · intro b bs hb
            refine walk_head_afterRun f ((a :: rest).drop ((a :: rest).takeWhile narratable).length) k ?_ b bs hb
            rw [drop_takeWhile_eq_dropWhile]
            cases hd : (a :: rest).dropWhile narratable with
            | nil => exact Or.inl rfl
            | cons c t' => exact Or.inr ⟨c, t', rfl, dropWhile_head_false hd⟩

/-- The tail of `headerStr` after its initial `<`. -/
def headerTail : List Char :=
  ['m', 'a', 'r', 'k', ' ', 'n', 'a', 'm', 'e', '=', '"', 'm', 'a', 'r', 'k', '_']

/-- Rendering distributes over cons. -/
theorem renderItems_cons (it : Item) (l : List Item) :
    renderItems (it :: l) = renderItem it ++ renderItems l := by
  simp [renderItems]

/-- The marker matcher fails on a user separator `<` followed by the
rendering of well-formed items: a match would need the literal
`mark name="mark_` next, and the item structure cannot produce it — the
narratable prefix can never reach the `=` (runs contain no separators), and
whatever follows a run is a marker or an excluded chunk, which supplies the
wrong character. -/
theorem matchMarker_after_lt {rest : List Item} (hwf : WFItems rest) :
    matchMarker ('<' :: (renderItems rest ++ speakClose)) = none := by
  cases hm : matchMarker ('<' :: (renderItems rest ++ speakClose)) with
  | none => rfl
  | some rem =>
    exfalso
    have hpre : headerStr.isPrefixOf ('<' :: (renderItems rest ++ speakClose)) = true := by
      by_contra hnp
      rw [matchMarker, if_neg hnp] at hm
      exact Option.noConfusion hm
    obtain ⟨w, hw⟩ := exists_append_of_isPrefixOf hpre
    rw [show headerStr = '<' :: headerTail from rfl, List.cons_append] at hw
    injection hw with _ heq
    cases hwf with
    | nil =>
      rw [show renderItems ([] : List Item) = [] from rfl, List.nil_append] at heq
      rw [show speakClose = '<' :: ['/', 's', 'p', 'e', 'a', 'k', '>'] from rfl,
        show headerTail = 'm' :: ['a', 'r', 'k', ' ', 'n', 'a', 'm', 'e', '=', '"', 'm', 'a', 'r', 'k', '_'] from rfl,
        List.cons_append] at heq
      injection heq with h1 _
      exact absurd h1 (by decide)
    | consMark k rest2 hrest2 =>
      rw [renderItems_cons,
        show renderItem (Item.mark k) = '<' :: ((headerTail ++ natDigits k) ++ tailStr) from rfl] at heq
      simp only [List.cons_append] at heq
      rw [show headerTail = 'm' :: ['a', 'r', 'k', ' ', 'n', 'a', 'm', 'e', '=', '"', 'm', 'a', 'r', 'k', '_'] from rfl,
        List.cons_append] at heq
      injection heq with h1 _
      exact absurd h1 (by decide)
    | consSep c rest2 hsepc hexc hrest2 =>
      rw [renderItems_cons, show renderItem (Item.chunk [c]) = [c] from rfl] at heq
      simp only [List.cons_append, List.nil_append] at heq
      rw [show headerTail = 'm' :: ['a', 'r', 'k', ' ', 'n', 'a', 'm', 'e', '=', '"', 'm', 'a', 'r', 'k', '_'] from rfl,
        List.cons_append] at heq
      injection heq with h1 _
      rw [h1] at hsepc
      exact absurd hsepc (by decide)
    | consExcl c rest2 hexc hrest2 =>
      rw [renderItems_cons, show renderItem (Item.chunk [c]) = [c] from rfl] at heq
      simp only [List.cons_append, List.nil_append] at heq
      rw [show headerTail = 'm' :: ['a', 'r', 'k', ' ', 'n', 'a', 'm', 'e', '=', '"', 'm', 'a', 'r', 'k', '_'] from rfl,
        List.cons_append] at heq
      injection heq with h1 _
      rw [h1] at hexc
      exact absurd hexc (by decide)
    | consRun s rest2 h1 h2 hnext hrest2 =>
      rw [renderItems_cons, show renderItem (Item.chunk s) = s from rfl, List.append_assoc] at heq
      rcases List.append_eq_append_iff.mp heq with ⟨a', ha1, ha2⟩ | ⟨c', hc1, _⟩
      · cases a' with
        | nil =>
          rw [List.append_nil] at ha1
          refine absurd (h2 '=' ?_) (by decide)
          rw [← ha1]
          decide
        | cons d a'' =>
          have hne : ('=' : Char) ∉ s := by
            intro hmem
            exact absurd (h2 '=' hmem) (by decide)
          have hsn : s = headerTail.take s.length := by
            rw [ha1, List.take_left]
          have hdn : d :: a'' = headerTail.drop s.length := by
            rw [ha1, List.drop_left]
          have hlen1 : 1 ≤ s.length := by
            cases s with
            | nil => exact absurd rfl h1
            | cons _ _ => simp
          have hlen9 : s.length ≤ 9 := by
            by_contra hgt
            push_neg at hgt
            apply hne
            rw [hsn]
            have h10 : ('=' : Char) ∈ headerTail.take 10 := by decide
            have h2' : headerTail.take 10 = (headerTail.take s.length).take 10 := by
              rw [List.take_take]
              congr 1
              omega
            rw [h2'] at h10
            exact List.take_subset _ _ h10
          have hhead : (headerTail.drop s.length).head? = some d := by
            rw [← hdn]; rfl
          have hd : d = '<' ∨ isExcluded d = true := by
            cases rest2 with
            | nil =>
              rw [show renderItems ([] : List Item) = [] from rfl, List.nil_append,
                show speakClose = '<' :: ['/', 's', 'p', 'e', 'a', 'k', '>'] from rfl,
                List.cons_append] at ha2
              injection ha2 with h3 _
              exact Or.inl h3.symm
            | cons b bs =>
              rcases hnext b bs rfl with ⟨k2, rfl⟩ | ⟨c2, rfl, hexc2⟩
              · rw [renderItems_cons,
                  show renderItem (Item.mark k2) = '<' :: ((headerTail ++ natDigits k2) ++ tailStr) from rfl] at ha2
                simp only [List.cons_append] at ha2
                injection ha2 with h3 _
                exact Or.inl h3.symm
              · rw [renderItems_cons, show renderItem (Item.chunk [c2]) = [c2] from rfl] at ha2
                simp only [List.cons_append, List.nil_append] at ha2
                injection ha2 with h3 _
                exact Or.inr (h3 ▸ hexc2)
          rcases hd with rfl | hd
          · have hall : ∀ n, n < 10 → 1 ≤ n → (headerTail.drop n).head? ≠ some '<' := by decide
            exact hall s.length (by omega) hlen1 hhead
          · have hquote : d = '"' := by
              have hmem : d ∈ headerTail := by
                rw [ha1]
                exact List.mem_append_right s (List.mem_cons_self d a'')
              have hq : ∀ x ∈ headerTail, isExcluded x = true → x = '"' := by decide
              exact hq d hmem hd
            subst hquote
            have hall : ∀ n, n < 10 → 1 ≤ n → (headerTail.drop n).head? ≠ some '"' := by decide
            exact hall s.length (by omega) hlen1 hhead
      · refine absurd (h2 '=' ?_) (by decide)
        rw [hc1]
        refine List.mem_append_left c' ?_
        decide

/-- Number of marker items. -/
def mcount (l : List Item) : Nat := l.countP isMark

/-- A `splitGoF` step on a position with no match moves one character. -/
theorem splitGoF_nomatch {fuel : Nat} {c : Char} {r acc : List Char}
    (h : matchMarker (c :: r) = none) :
    splitGoF (fuel + 1) (c :: r) acc = splitGoF fuel r (c :: acc) := by
  simp [splitGoF, h]

/-- A `splitGoF` step on a matching position closes the piece. -/
theorem splitGoF_somematch {fuel : Nat} {c : Char} {r acc rem : List Char}
    (h : matchMarker (c :: r) = some rem) :
    splitGoF (fuel + 1) (c :: r) acc = acc.reverse :: splitGoF fuel rem [] := by
  simp [splitGoF, h]

/-- Splitting a string in which no position matches yields one piece. -/
theorem splitGoF_all_nomatch :
    ∀ (fuel : Nat) (s acc : List Char),
      (∀ p, matchMarker (s.drop p) = none) → s.length + 1 ≤ fuel →
      (splitGoF fuel s acc).length = 1 := by
  intro fuel
  induction fuel with
  | zero => intro s acc _ hf; exact absurd hf (by omega)
  | succ f ih =>
    intro s acc hno hf
    cases s with
    | nil => rfl
    | cons c r =>
      rw [splitGoF_nomatch (by simpa using hno 0)]
      refine ih r (c :: acc) (fun p => by simpa using hno (p + 1)) ?_
      simp at hf
      omega

/-- No position of `</speak>` matches the marker pattern. -/
theorem speakClose_nomatch : ∀ p, matchMarker (speakClose.drop p) = none := by
  intro p
  rcases Nat.lt_or_ge p 9 with hp | hp
  · have h : ∀ q, q < 9 → matchMarker (speakClose.drop q) = none := by decide
    exact h p hp
  · have h : speakClose.drop p = [] := List.drop_eq_nil_of_le (by simp [speakClose]; omega)
    rw [h]
    exact matchMarker_nil

/-- The scan of the rendered items: the number of pieces produced by the
split is the number of markers plus one.  `partialRun` is the not yet
consumed tail of a narratable run. -/
theorem scanItems :
    ∀ (fuel : Nat) (partialRun : List Char) (items : List Item) (acc : List Char),
      (∀ c ∈ partialRun, narratable c = true) →
      WFItems items →
      (partialRun ++ renderItems items ++ speakClose).length + 1 ≤ fuel →
      (splitGoF fuel (partialRun ++ renderItems items ++ speakClose) acc).length
        = mcount items + 1 := by
  intro fuel
  induction fuel with
  | zero => intro p items acc _ _ hf; exact absurd hf (by omega)
  | succ f ih =>
    intro p items acc hp hwf hf
    cases p with
    | cons c p' =>
      have hc : narratable c = true := hp c (List.mem_cons_self c p')
      have hlt : c ≠ '<' := by
        intro h
        rw [h] at hc
        exact absurd hc (by decide)
      simp only [List.cons_append]
      rw [splitGoF_nomatch (matchMarker_ne_lt hlt)]
      refine ih p' items (c :: acc) (fun d hd => hp d (List.mem_cons_of_mem c hd)) hwf ?_
      simp only [List.cons_append, List.length_cons, List.length_append] at hf ⊢
      omega
    | nil =>
      rw [List.nil_append]
      cases hwf with
      | nil =>
        rw [show renderItems ([] : List Item) = [] from rfl, List.nil_append]
        rw [splitGoF_all_nomatch (f + 1) speakClose acc speakClose_nomatch
          (by simpa using hf)]
        rfl
      | consRun s rest h1 h2 hnext hrest =>
        cases s with
        | nil => exact absurd rfl h1
        | cons c s' =>
          rw [renderItems_cons, show renderItem (Item.chunk (c :: s')) = c :: s' from rfl]
          simp only [List.cons_append]
          have hcn : narratable c = true := h2 c (List.mem_cons_self c s')
          have hlt : c ≠ '<' := by
            intro h
            rw [h] at hcn
            exact absurd hcn (by decide)
          rw [splitGoF_nomatch (matchMarker_ne_lt hlt)]
          have hmc : mcount (Item.chunk (c :: s') :: rest) = mcount rest := by
            simp [mcount, isMark, List.countP_cons]
          rw [hmc]
          refine ih s' rest (c :: acc) (fun d hd => h2 d (List.mem_cons_of_mem c hd)) hrest ?_
          rw [renderItems_cons, show renderItem (Item.chunk (c :: s')) = c :: s' from rfl] at hf
          simp only [List.cons_append, List.length_cons, List.length_append] at hf ⊢
          omega
      | consSep c rest hsepc hexc hrest =>
        rw [renderItems_cons, show renderItem (Item.chunk [c]) = [c] from rfl]
        simp only [List.cons_append, List.nil_append]
        have hmc : mcount (Item.chunk [c] :: rest) = mcount rest := by
          simp [mcount, isMark, List.countP_cons]
        rw [hmc]
        have hfuel : (([] : List Char) ++ renderItems rest ++ speakClose).length + 1 ≤ f := by
          rw [renderItems_cons, show renderItem (Item.chunk [c]) = [c] from rfl] at hf
          simp only [List.cons_append, List.nil_append, List.length_cons,
            List.length_append] at hf ⊢
          omega
        by_cases hctl : c = '<'
        · subst hctl
          rw [splitGoF_nomatch (matchMarker_after_lt hrest)]
          have := ih [] rest ('<' :: acc) (by intro d hd; simp at hd) hrest hfuel
          simpa using this
        · rw [splitGoF_nomatch (matchMarker_ne_lt hctl)]
          have := ih [] rest (c :: acc) (by intro d hd; simp at hd) hrest hfuel
          simpa using this
      | consExcl c rest hexc hrest =>
        rw [renderItems_cons, show renderItem (Item.chunk [c]) = [c] from rfl]
        simp only [List.cons_append, List.nil_append]
        have hmc : mcount (Item.chunk [c] :: rest) = mcount rest := by
          simp [mcount, isMark, List.countP_cons]
        rw [hmc]
        have hlt : c ≠ '<' := by
          intro h
          rw [h] at hexc
          exact absurd hexc (by decide)
        rw [splitGoF_nomatch (matchMarker_ne_lt hlt)]
        have hfuel : (([] : List Char) ++ renderItems rest ++ speakClose).length + 1 ≤ f := by
          rw [renderItems_cons, show renderItem (Item.chunk [c]) = [c] from rfl] at hf
          simp only [List.cons_append, List.nil_append, List.length_cons,
            List.length_append] at hf ⊢
          omega
        have := ih [] rest (c :: acc) (by intro d hd; simp at hd) hrest hfuel
        simpa using this
      | consMark k rest hrest =>
        rw [renderItems_cons, show renderItem (Item.mark k) = markStr k from rfl,
          List.append_assoc]
        have hm := matchMarker_mark k (renderItems rest ++ speakClose)
        rw [show markStr k ++ (renderItems rest ++ speakClose)
            = '<' :: (((headerTail ++ natDigits k) ++ tailStr) ++ (renderItems rest ++ speakClose)) from rfl] at hm ⊢
        rw [splitGoF_somematch hm]
        have hfuel : (([] : List Char) ++ renderItems rest ++ speakClose).length + 1 ≤ f := by
          rw [renderItems_cons, show renderItem (Item.mark k) = markStr k from rfl] at hf
          have hml : (markStr k).length = 20 + (natDigits k).length := by
            simp [markStr, headerStr, tailStr, List.length_append]
            omega
          simp only [List.length_append, List.nil_append, hml] at hf ⊢
          omega
        have hrec := ih [] rest [] (by intro d hd; simp at hd) hrest hfuel
        simp only [List.nil_append] at hrec
        rw [List.length_cons, hrec]
        simp [mcount, isMark, List.countP_cons]

/-- Splitting `<speak>` followed by rendered items: no position inside the
opening tag matches, so the piece count is the scan's piece count. -/
theorem scan_open :
    ∀ (fuel : Nat) (items : List Item) (acc : List Char),
      WFItems items →
      (speakOpen ++ renderItems items ++ speakClose).length + 1 ≤ fuel →
      (splitGoF fuel (speakOpen ++ renderItems items ++ speakClose) acc).length
        = mcount items + 1 := by
  intro fuel items acc hwf hf
  have h7 : 7 ≤ fuel := by
    simp only [List.length_append, speakOpen, speakClose, List.length_cons,
      List.length_nil] at hf
    omega
  obtain ⟨f7, rfl⟩ : ∃ f7, fuel = f7 + 7 := ⟨fuel - 7, by omega⟩
  rw [show speakOpen ++ renderItems items ++ speakClose
      = '<' :: 's' :: 'p' :: 'e' :: 'a' :: 'k' :: '>' :: (renderItems items ++ speakClose) from rfl]
  rw [show f7 + 7 = f7 + 6 + 1 from rfl,
    splitGoF_nomatch (matchMarker_two (show ('s' : Char) ≠ 'm' from by decide)),
    show f7 + 6 = f7 + 5 + 1 from rfl,
    splitGoF_nomatch (matchMarker_ne_lt (show ('s' : Char) ≠ '<' from by decide)),
    show f7 + 5 = f7 + 4 + 1 from rfl,
    splitGoF_nomatch (matchMarker_ne_lt (show ('p' : Char) ≠ '<' from by decide)),
    show f7 + 4 = f7 + 3 + 1 from rfl,
    splitGoF_nomatch (matchMarker_ne_lt (show ('e' : Char) ≠ '<' from by decide)),
    show f7 + 3 = f7 + 2 + 1 from rfl,
    splitGoF_nomatch (matchMarker_ne_lt (show ('a' : Char) ≠ '<' from by decide)),
    show f7 + 2 = f7 + 1 + 1 from rfl,
    splitGoF_nomatch (matchMarker_ne_lt (show ('k' : Char) ≠ '<' from by decide)),
    show f7 + 1 = f7 + 0 + 1 from rfl,
    splitGoF_nomatch (matchMarker_ne_lt (show ('>' : Char) ≠ '<' from by decide))]
  have hfuel : (([] : List Char) ++ renderItems items ++ speakClose).length + 1 ≤ f7 + 0 := by
    simp only [List.length_append, speakOpen, speakClose, List.length_cons,
      List.length_nil, List.nil_append] at hf ⊢
    omega
  have := scanItems (f7 + 0) [] items ('>' :: 'k' :: 'a' :: 'e' :: 'p' :: 's' :: '<' :: acc)
    (fun d hd => absurd hd (List.not_mem_nil d)) hwf hfuel
  simpa using this

/-- The final `mark_index` of the walk equals the starting index plus the
number of emitted markers. -/
theorem walk_mark_index :
    ∀ (fuel : Nat) (t : List Char) (flag atStart : Bool) (k : Nat),
      (walkAux fuel t flag atStart k).2 = k + mcount (walkAux fuel t flag atStart k).1 := by
  intro fuel
  induction fuel with
  | zero => intro t flag aS k; cases t <;> simp [walkAux, mcount]
  | succ f ih =>
    intro t flag aS k
    cases t with
    | nil => simp [walkAux, mcount]
    | cons a rest =>
      rw [walkAux]
      by_cases hex : isExcluded a
      · simp only [if_pos hex]
        show (walkAux f rest flag false k).2
          = k + mcount (Item.chunk [a] :: (walkAux f rest flag false k).1)
        rw [ih rest flag false k]
        simp [mcount, isMark, List.countP_cons]
      · by_cases hsep : isSeparatorChar a
        · by_cases hfl : (flag || aS) = true
          · simp only [if_neg hex, if_pos hsep, if_pos hfl]
            show (walkAux f rest false false (k + 1)).2
              = k + mcount (Item.mark k :: Item.chunk [a] :: (walkAux f rest false false (k + 1)).1)
            rw [ih rest false false (k + 1)]
            simp [mcount, isMark, List.countP_cons]
            omega
          · simp only [if_neg hex, if_pos hsep, if_neg hfl]
            show (walkAux f rest false false k).2
              = k + mcount (Item.chunk [a] :: (walkAux f rest false false k).1)
            rw [ih rest false false k]
            simp [mcount, isMark, List.countP_cons]
        · simp only [if_neg hex, if_neg hsep]
          show (walkAux f ((a :: rest).drop ((a :: rest).takeWhile narratable).length) true false k).2
            = k + mcount (Item.chunk ((a :: rest).takeWhile narratable) ::
                (walkAux f ((a :: rest).drop ((a :: rest).takeWhile narratable).length) true false k).1)
          rw [ih ((a :: rest).drop ((a :: rest).takeWhile narratable).length) true false k]
          simp [mcount, isMark, List.countP_cons]

/-- Splitting the generated markup on the marker pattern yields exactly
`mark_count + 1` pieces: every rendered marker matches, and no other
position of the markup can match the marker pattern. -/
theorem split_count (text : List Char) :
    (pySplitMarker (text_to_ssml text).1).length = (text_to_ssml text).2 + 1 := by
  have hwf := walk_WF (preprocess text).length (preprocess text) false true 0 le_rfl
  rw [pySplitMarker,
    show (text_to_ssml text).1 = speakOpen ++ renderItems (segmentItems text) ++ speakClose from rfl]
  rw [scan_open _ (segmentItems text) [] hwf le_rfl]
  have h2 : (text_to_ssml text).2 = mcount (segmentItems text) := by
    show segmentMarkIndex text = _
    rw [segmentMarkIndex, walk_mark_index]
    rw [Nat.zero_add]
    rfl
  rw [h2]

/-- The emission loop emits at most one segment per piece. -/
theorem emitSegs_length_le {tps : List (List Char × Rat)} {n : Nat} :
    ∀ (pieces : List (List Char)) (i : Nat) (start : Option Rat),
      (emitSegs tps n pieces i start).length ≤ pieces.length := by
  intro pieces
  induction pieces with
  | nil => intro i start; simp [emitSegs]
  | cons piece rest ih =>
    intro i start
    rw [emitSegs]
    by_cases he : cleanSegment piece = []
    · rw [if_pos he]
      exact Nat.le_succ_of_le (ih (i + 1) start)
    · rw [if_neg he]
      simpa using ih (i + 1) _

/-- C8: for every input text and every timepoint list, the number of
segments the Resolver extracts is at most the marker count plus one. -/
theorem c8_segment_count :
    ∀ (text : List Char) (tps : List (List Char × Rat)),
      (process_response tps (text_to_ssml text).1 (text_to_ssml text).2).length
        ≤ (text_to_ssml text).2 + 1 := by
  intro text tps
  rw [process_response]
  calc (emitSegs tps (text_to_ssml text).2 (pySplitMarker (text_to_ssml text).1) 0 (some 0)).length
      ≤ (pySplitMarker (text_to_ssml text).1).length := emitSegs_length_le _ 0 (some 0)
    _ = (text_to_ssml text).2 + 1 := split_count text

/-- When every marker below `n` has a reported timestamp and the pieces fit
in `n + 1`, every emitted segment except possibly the last has a known end
time. -/
theorem emitSegs_onlyLastNone {tps : List (List Char × Rat)} {n : Nat}
    (htot : ∀ j, j < n → markTimeLookup tps j ≠ none) :
    ∀ (pieces : List (List Char)) (i : Nat) (start : Option Rat),
      i + pieces.length ≤ n + 1 → onlyLastNone (emitSegs tps n pieces i start) := by
  intro pieces
  induction pieces with
  | nil => intro i start _; trivial
  | cons piece rest ihp =>
    intro i start hlen
    rw [emitSegs]
    by_cases he : cleanSegment piece = []
    · rw [if_pos he]
      refine ihp (i + 1) start ?_
      simp only [List.length_cons] at hlen
      omega
    · rw [if_neg he]
      show onlyLastNone ((cleanSegment piece, start, if i < n then markTimeLookup tps i else none)
        :: emitSegs tps n rest (i + 1) (if i < n then markTimeLookup tps i else none))
      cases hrec : emitSegs tps n rest (i + 1) (if i < n then markTimeLookup tps i else none) with
      | nil => trivial
      | cons y ys =>
        refine ⟨?_, hrec ▸ ihp (i + 1) _ (by simp only [List.length_cons] at hlen; omega)⟩
        by_cases hin : i < n
        · show (if i < n then markTimeLookup tps i else none) ≠ none
          rw [if_pos hin]
          exact htot i hin
        · exfalso
          have hr0 : rest.length = 0 := by
            simp only [List.length_cons] at hlen
            omega
          rw [List.length_eq_zero] at hr0
          subst hr0
          simp [emitSegs] at hrec

/-- C3 (amended): for every input text and every timepoint list that
reports a timestamp for each of the Segmenter's markers, in the Resolver's
output the end time is null only for the final segment. -/
theorem c3_null_only_final_amended :
    ∀ (text : List Char) (tps : List (List Char × Rat)),
      (∀ j, j < (text_to_ssml text).2 → markTimeLookup tps j ≠ none) →
      onlyLastNone (process_response tps (text_to_ssml text).1 (text_to_ssml text).2) := by
  intro text tps htot
  rw [process_response]
  refine emitSegs_onlyLastNone htot (pySplitMarker (text_to_ssml text).1) 0 (some 0) ?_
  have := split_count text
  omega

set_option maxRecDepth 40000 in
/-- C3 witness: with all three Scenario A timestamps reported, only the
final segment could have a null end time. -/
theorem c3_null_only_final_witness :
    (∀ j, j < (text_to_ssml "Hello, world. Goodbye!".toList).2 →
      markTimeLookup [("mark_0".toList, q12), ("mark_1".toList, q34), ("mark_2".toList, 4)] j ≠ none)
    ∧ onlyLastNone (process_response
        [("mark_0".toList, q12), ("mark_1".toList, q34), ("mark_2".toList, 4)]
        (text_to_ssml "Hello, world. Goodbye!".toList).1
        (text_to_ssml "Hello, world. Goodbye!".toList).2) :=
  ⟨by decide, c3_null_only_final_amended _ _ (by decide)⟩
